import Mathlib

/-!
Verification of the two data-wrangling scripts in this repository:

* `3_cohort_analysis.py` — the Cohort Aggregator: reads a patient CSV,
  filters rows to BMI ∈ [10, 60], derives a `bmi_range` category, groups by
  it and emits per-group mean Glucose, row count and mean Age.
* `patient_data_cleaner.py` — the Record Cleaner: title-cases names,
  coerces ages to integers, filters to age ≥ 18 and removes exact
  duplicates via `tuple(sorted(patient.items()))`.

Numeric columns (BMI, Glucose, Age) are embedded as rationals; the
comparisons against 10, 18.5, 25, 30, 60 are exact in both the source
(binary floating point, all bounds exactly representable) and the model.
-/

namespace Cohort
/-- A row of the patient table after the projection at line 30 of
`3_cohort_analysis.py` (`select(["BMI", "Glucose", "Age"])`); only these
three columns are read by the pipeline. -/
structure PatientRow where
  bmi : ℚ
  glucose : ℚ
  age : ℚ
deriving DecidableEq

/-- Line 28: `df.filter((pl.col("BMI") >= 10) & (pl.col("BMI") <= 60))`. -/
def filterBMI (rows : List PatientRow) : List PatientRow :=
  rows.filter (fun r => decide (10 ≤ r.bmi) && decide (r.bmi ≤ 60))

/-- Lines 33–39: the `when/then/otherwise` cascade assigning the
`bmi_range` label, conditions tested in source order. -/
def bmiCategory (bmi : ℚ) : String :=
  if bmi < 18.5 then "Underweight"
  else if bmi < 25 then "Normal"
  else if bmi < 30 then "Overweight"
  else "Obese"

/-- A row extended with the derived `bmi_range` column (lines 32–41). -/
structure AnnRow where
  bmi : ℚ
  glucose : ℚ
  age : ℚ
  bmi_range : String
deriving DecidableEq

/-- `with_columns(... .alias("bmi_range"))` (lines 32–41). -/
def withBmiRange (rows : List PatientRow) : List AnnRow :=
  rows.map (fun r => ⟨r.bmi, r.glucose, r.age, bmiCategory r.bmi⟩)

/-- One output row of the aggregation (lines 43–47). -/
structure CohortRow where
  bmi_range : String
  avg_glucose : ℚ
  patient_count : Nat
  avg_age : ℚ
deriving DecidableEq

/-- `group_by("bmi_range")` (line 43): partition the rows by their
`bmi_range` value.  Polars leaves group order unspecified; the model
determinizes it to first-occurrence order, which no claim depends on. -/
def groupByRange : List AnnRow → List (String × List AnnRow)
  | [] => []
  | r :: rest =>
    (r.bmi_range, r :: rest.filter (fun x => decide (x.bmi_range = r.bmi_range))) ::
      groupByRange (rest.filter (fun x => !decide (x.bmi_range = r.bmi_range)))
termination_by l => l.length
decreasing_by
  simp only [List.length_cons]
  exact Nat.lt_succ_of_le (List.length_filter_le _ _)

/-- The aggregation body at lines 44–46: mean Glucose, row count, mean
Age of one group. -/
def aggGroup (c : String) (g : List AnnRow) : CohortRow :=
  { bmi_range := c
    avg_glucose := (g.map (fun x => x.glucose)).sum / (g.length : ℚ)
    patient_count := g.length
    avg_age := (g.map (fun x => x.age)).sum / (g.length : ℚ) }

/-- The lazy pipeline of lines 27–48: filter, project, derive
`bmi_range`, group and aggregate. -/
def analyze_cohorts (rows : List PatientRow) : List CohortRow :=
  (groupByRange (withBmiRange (filterBMI rows))).map (fun p => aggGroup p.1 p.2)

/-- Failure modes of `analyze_patient_cohorts`: the explicit
`FileNotFoundError` at line 20, a failure of `pl.read_csv` at line 24
(before the parquet file is written), and a failure of the
scan/collect pipeline at lines 27–48 (after it is written). -/
inductive AnalyzeError where
  | fileNotFound
  | csvError
  | processError
deriving DecidableEq

/-- The on-disk state the function manipulates: whether the transient
`patients_large.parquet` artifact exists. -/
structure FileState where
  parquetExists : Bool
deriving DecidableEq

/-- `analyze_patient_cohorts` (lines 4–54) including its file-system
effects.  `inputExists` models `os.path.exists(input_file)` (line 19);
`csvParse` is the outcome of `pl.read_csv` (line 24, `none` = parse
failure, which happens before `write_parquet` creates the artifact);
`columnsOk` models whether the scan/filter/select/collect pipeline at
lines 27–48 succeeds (e.g. a required column is missing).  The cleanup at
lines 51–52 runs only on the success path — it is not in a `finally`
block — so a pipeline failure returns with the artifact still on disk. -/
def analyze_patient_cohorts (inputExists : Bool) (csvParse : Option (List PatientRow))
    (columnsOk : Bool) (fs : FileState) :
    Except AnalyzeError (List CohortRow) × FileState :=
  if inputExists = false then (.error .fileNotFound, fs)
  else
    match csvParse with
    | none => (.error .csvError, fs)
    | some rows =>
      if columnsOk = false then (.error .processError, { parquetExists := true })
      else (.ok (analyze_cohorts rows), { parquetExists := false })

end Cohort

namespace Cleaner

/-- A JSON-representable field value of a patient record: the claims only
exercise string and integer fields. -/
inductive PValue where
  | str (s : String)
  | int (n : Int)
deriving DecidableEq

/-- A patient record: a Python dict embedded as an association list in
insertion order with pairwise-distinct keys. -/
abbrev Patient := List (String × PValue)

/-- `patient[k]` lookup: first (unique) entry with key `k`. -/
def dictGet (p : Patient) (k : String) : Option PValue :=
  (p.find? (fun kv => kv.1 == k)).map (fun kv => kv.2)

/-- `patient[k] = v`: update the value in place when the key exists
(keeping its position), append the pair otherwise — Python dict
assignment semantics. -/
def dictSet (p : Patient) (k : String) (v : PValue) : Patient :=
  if p.any (fun kv => kv.1 == k) then
    p.map (fun kv => if kv.1 == k then (k, v) else kv)
  else p ++ [(k, v)]

/-- One step of Python `str.title()` (line 85): a letter following a
non-letter is uppercased, a letter following a letter is lowercased,
non-letters pass through.  The flag records whether the previous
character was a letter.  (ASCII model of Python's cased characters.) -/
def pyTitleAux : Bool → List Char → List Char
  | _, [] => []
  | prevCased, c :: rest =>
    if c.isAlpha then
      (if prevCased then c.toLower else c.toUpper) :: pyTitleAux true rest
    else c :: pyTitleAux false rest

/-- `str.title()` as used at line 85 of `patient_data_cleaner.py`. -/
def pyTitle (s : String) : String := ⟨pyTitleAux false s.data⟩

/-- Numeric value of a digit string (no sign). -/
def digitsVal (cs : List Char) : Nat :=
  cs.foldl (fun acc c => acc * 10 + (c.toNat - 48)) 0

/-- Strip leading whitespace characters. -/
def dropWhitespace : List Char → List Char
  | [] => []
  | c :: rest => if c.isWhitespace then dropWhitespace rest else c :: rest

/-- Strip whitespace from both ends, as `int()` does before parsing. -/
def pyStrip (cs : List Char) : List Char :=
  ((dropWhitespace ((dropWhitespace cs).reverse)).reverse)

/-- `int(s)` on a string (line 89): surrounding whitespace is stripped,
an optional sign is allowed, the rest must be a nonempty digit run;
anything else raises `ValueError` (modelled as `none`). -/
def pyIntOfString (s : String) : Option Int :=
  match pyStrip s.data with
  | [] => none
  | '-' :: rest =>
    if !rest.isEmpty && rest.all (fun c => c.isDigit) then
      some (-(digitsVal rest : Int))
    else none
  | '+' :: rest =>
    if !rest.isEmpty && rest.all (fun c => c.isDigit) then
      some ((digitsVal rest : Int))
    else none
  | cs =>
    if cs.all (fun c => c.isDigit) then some ((digitsVal cs : Int)) else none

/-- `int(v)` (line 89): integers pass through, strings are parsed. -/
def pyInt : PValue → Option Int
  | .int n => some n
  | .str s => pyIntOfString s

/-- The ways one loop iteration of `clean_patient_data` can raise:
`patient["name"]` missing (KeyError), `.title()` on a non-string
(AttributeError), or `int()` on a non-numeric value (ValueError).  Any
of these aborts the whole run. -/
inductive CleanError where
  | keyError
  | typeError
  | valueError
deriving DecidableEq

/-- Lines 85 and 89: mutate one record —
`patient["name"] = patient["name"].title()` then
`patient["age"] = int(patient.get("age", 0))` — returning the mutated
record together with the integer age it now stores. -/
def normalizeRecord (p : Patient) : Except CleanError (Patient × Int) :=
  match dictGet p "name" with
  | none => .error .keyError
  | some (.int _) => .error .typeError
  | some (.str s) =>
    let p1 := dictSet p "name" (.str (pyTitle s))
    match pyInt ((dictGet p1 "age").getD (.int 0)) with
    | none => .error .valueError
    | some n => .ok (dictSet p1 "age" (.int n), n)

/-- Python string comparison: lexicographic on code points. -/
def lexLE : List Char → List Char → Bool
  | [], _ => true
  | _ :: _, [] => false
  | c :: cs, d :: ds =>
    if c.toNat < d.toNat then true
    else if d.toNat < c.toNat then false
    else lexLE cs ds

/-- `tuple(sorted(patient.items()))` (line 100): the record's fields
sorted by key (code-point order, as Python compares strings).  Keys are
pairwise distinct, so sorting by key alone is total and deterministic,
exactly as in Python (tuple comparison never reaches the values). -/
def canonKey (p : Patient) : Patient :=
  List.insertionSort (fun a b => lexLE a.1.data b.1.data = true) p

/-- The loop state of `clean_patient_data`: all records processed so far
after their in-place mutation (`mutated`, indexed by input position),
the `seen` set of canonical keys, and the input positions appended to
`cleaned_patients` so far (`survivors`). -/
structure CleanState where
  mutated : List Patient
  seen : List Patient
  survivors : List Nat
deriving DecidableEq

/-- State at entry of the loop (lines 79–80): `cleaned_patients = []`,
`seen = set()`. -/
def initState : CleanState := ⟨[], [], []⟩

/-- Lines 97–103 for one already-normalized record at input position
`k`: if its age is ≥ 18 and its canonical key is unseen, remember the
key and append the record; otherwise drop it. -/
def cleanStep (k : Nat) (pn : Patient × Int) (st : CleanState) : CleanState :=
  let st1 : CleanState := { st with mutated := st.mutated ++ [pn.1] }
  if 18 ≤ pn.2 then
    if canonKey pn.1 ∈ st1.seen then st1
    else { st1 with seen := canonKey pn.1 :: st1.seen,
                    survivors := st1.survivors ++ [k] }
  else st1

/-- The loop at lines 82–103, starting at input position `k`:
normalize each record in order (any normalization error aborts the run)
and fold `cleanStep` over the results. -/
def cleanAll : Nat → List Patient → CleanState → Except CleanError CleanState
  | _, [], st => .ok st
  | k, p :: rest, st =>
    match normalizeRecord p with
    | .error e => .error e
    | .ok pn => cleanAll (k + 1) rest (cleanStep k pn st)

/-- `clean_patient_data` (lines 65–110).  Python appends the very dict
objects it mutated; object identity is modelled by position in the
input list, so the result is read off as the `survivors` positions
indexing into the `mutated` list.  (Lines 107–108 return `[]` when
nothing survived, which the final map also yields.) -/
def clean_patient_data (patients : List Patient) : Except CleanError (List Patient) :=
  (cleanAll 0 patients initState).map
    (fun st => st.survivors.map (fun i => st.mutated.getD i []))

/-- Normalization of a whole input list, position by position (the
per-iteration part of lines 85–89, split from the filtering fold). -/
def normAll : List Patient → Except CleanError (List (Patient × Int))
  | [] => .ok []
  | p :: rest =>
    match normalizeRecord p with
    | .error e => .error e
    | .ok pn => (normAll rest).map (fun ns => pn :: ns)

/-- The filtering/dedup fold of `cleanAll` on pre-normalized records. -/
def cleanPure : Nat → List (Patient × Int) → CleanState → CleanState
  | _, [], st => st
  | k, pn :: rest, st => cleanPure (k + 1) rest (cleanStep k pn st)

/-- The integer age stored at input position `i` after normalization. -/
def ageAt (ns : List (Patient × Int)) (i : Nat) : Int := (ns.getD i ([], 0)).2

/-- The canonical key (sorted items) of the normalized record at input
position `i`. -/
def keyAt (ns : List (Patient × Int)) (i : Nat) : Patient :=
  canonKey (ns.getD i ([], 0)).1

/-- The input positions appended to `cleaned_patients`, given the
already-normalized records `ns` starting at position `k` with the keys
in `seen0` already seen: the survivors-only projection of the loop. -/
def selectIdx : List Patient → Nat → List (Patient × Int) → List Nat
  | _, _, [] => []
  | seen0, k, pn :: rest =>
    if 18 ≤ pn.2 then
      if canonKey pn.1 ∈ seen0 then selectIdx seen0 (k + 1) rest
      else k :: selectIdx (canonKey pn.1 :: seen0) (k + 1) rest
    else selectIdx seen0 (k + 1) rest

/-- Position `i` survives a full run: its age is ≥ 18 and no earlier
age-passing position carries the same canonical key. -/
def survivesSpec (ns : List (Patient × Int)) (i : Nat) : Prop :=
  i < ns.length ∧ 18 ≤ ageAt ns i ∧
    ∀ j, j < i → 18 ≤ ageAt ns j → keyAt ns j ≠ keyAt ns i

end Cleaner

namespace Cohort

theorem withBmiRange_mem {rows : List PatientRow} {r : AnnRow}
    (h : r ∈ withBmiRange rows) : r.bmi_range = bmiCategory r.bmi := by
  rcases List.mem_map.mp h with ⟨x, _, rfl⟩
  rfl

theorem groupByRange_key_mem : ∀ (L : List AnnRow) (p : String × List AnnRow),
    p ∈ groupByRange L → ∃ x ∈ L, x.bmi_range = p.1
  | [], p, h => by simp [groupByRange] at h
  | r :: rest, p, h => by
    rw [groupByRange] at h
    rcases List.mem_cons.mp h with h | h
    · exact ⟨r, List.mem_cons_self .., by rw [h]⟩
    · rcases groupByRange_key_mem _ p h with ⟨x, hx, hxr⟩
      exact ⟨x, List.mem_cons_of_mem _ (List.mem_of_mem_filter hx), hxr⟩
termination_by L => L.length
decreasing_by
  simp only [List.length_cons]
  exact Nat.lt_succ_of_le (List.length_filter_le _ _)

theorem groupByRange_snd_eq_filter : ∀ (L : List AnnRow) (p : String × List AnnRow),
    p ∈ groupByRange L → p.2 = L.filter (fun x => decide (x.bmi_range = p.1))
  | [], p, h => by simp [groupByRange] at h
  | r :: rest, p, h => by
    rw [groupByRange] at h
    rcases List.mem_cons.mp h with h | h
    · subst h
      rw [List.filter_cons_of_pos (by simp)]
    · have hkey : p.1 ≠ r.bmi_range := by
        rcases groupByRange_key_mem _ p h with ⟨x, hx, hxr⟩
        have := List.of_mem_filter hx
        simp only [Bool.not_eq_true', decide_eq_false_iff_not] at this
        rw [← hxr]; exact this
      have ih := groupByRange_snd_eq_filter (rest.filter (fun x => !decide (x.bmi_range = r.bmi_range))) p h
      rw [ih, List.filter_filter]
      have hcong : ∀ x : AnnRow,
          (decide (x.bmi_range = p.1) && !decide (x.bmi_range = r.bmi_range))
            = decide (x.bmi_range = p.1) := by
        intro x
        by_cases hx : x.bmi_range = p.1
        · have hne : ¬ (x.bmi_range = r.bmi_range) := by rw [hx]; exact hkey
          simp [hx, hne]
          exact hkey
        · simp [hx]
      rw [List.filter_congr (fun x _ => hcong x)]
      rw [List.filter_cons_of_neg]
      simp only [decide_eq_true_eq]
      intro hc
      exact hkey hc.symm
termination_by L => L.length
decreasing_by
  simp only [List.length_cons]
  exact Nat.lt_succ_of_le (List.length_filter_le _ _)

theorem length_filter_add_length_filter_not {α : Type} (p : α → Bool) :
    ∀ l : List α, (l.filter p).length + (l.filter (fun x => !p x)).length = l.length
  | [] => rfl
  | a :: l => by
    have ih := length_filter_add_length_filter_not p l
    by_cases h : p a <;> simp [List.filter_cons, h] <;> omega

theorem groupByRange_length_sum : ∀ (L : List AnnRow),
    ((groupByRange L).map (fun p => p.2.length)).sum = L.length
  | [] => by simp [groupByRange]
  | r :: rest => by
    rw [groupByRange]
    simp only [List.map_cons, List.sum_cons, List.length_cons]
    rw [groupByRange_length_sum (rest.filter (fun x => !decide (x.bmi_range = r.bmi_range)))]
    have := length_filter_add_length_filter_not
      (fun x : AnnRow => decide (x.bmi_range = r.bmi_range)) rest
    omega
termination_by L => L.length
decreasing_by
  simp only [List.length_cons]
  exact Nat.lt_succ_of_le (List.length_filter_le _ _)



/-- C1: for every row surviving the BMI filter, `bmi_range` is assigned by
the cascade BMI < 18.5 → Underweight, 18.5 ≤ BMI < 25 → Normal,
25 ≤ BMI < 30 → Overweight, BMI ≥ 30 → Obese, conditions checked in this
order with first match winning, and the label is always one of the four. -/
theorem bmi_range_partition (rows : List PatientRow) (r : AnnRow)
    (hr : r ∈ withBmiRange (filterBMI rows)) :
    (r.bmi < 18.5 → r.bmi_range = "Underweight") ∧
    (18.5 ≤ r.bmi → r.bmi < 25 → r.bmi_range = "Normal") ∧
    (25 ≤ r.bmi → r.bmi < 30 → r.bmi_range = "Overweight") ∧
    (30 ≤ r.bmi → r.bmi_range = "Obese") ∧
    (r.bmi_range = "Underweight" ∨ r.bmi_range = "Normal" ∨
      r.bmi_range = "Overweight" ∨ r.bmi_range = "Obese") := by
  have hcat := withBmiRange_mem hr
  unfold bmiCategory at hcat
  refine ⟨?_, ?_, ?_, ?_, ?_⟩
  · intro h1
    rw [hcat, if_pos h1]
  · intro h1 h2
    rw [hcat, if_neg (not_lt.mpr h1), if_pos h2]
  · intro h1 h2
    rw [hcat, if_neg (not_lt.mpr (le_trans (by norm_num) h1)),
      if_neg (not_lt.mpr h1), if_pos h2]
  · intro h1
    rw [hcat, if_neg (not_lt.mpr (le_trans (by norm_num) h1)),
      if_neg (not_lt.mpr (le_trans (by norm_num) h1)), if_neg (not_lt.mpr h1)]
  · rw [hcat]
    by_cases h1 : r.bmi < 18.5
    · simp [h1]
    by_cases h2 : r.bmi < 25
    · simp [h1, h2]
    by_cases h3 : r.bmi < 30
    · simp [h1, h2, h3]
    · simp [h1, h2, h3]

theorem bmi_range_partition_witness :
    (⟨22, 100, 30, "Normal"⟩ : AnnRow).bmi_range = "Normal" :=
  (bmi_range_partition [⟨22, 100, 30⟩] ⟨22, 100, 30, "Normal"⟩
      (by norm_num [withBmiRange, filterBMI, bmiCategory])).2.1
    (by norm_num) (by norm_num)

/-- C3: summing `patient_count` over all output rows gives exactly the
number of input rows with BMI in the closed interval [10, 60]; rows
outside it contribute to no aggregate. -/
theorem patient_count_sum (rows : List PatientRow) :
    ((analyze_cohorts rows).map (fun c => c.patient_count)).sum
      = (rows.filter (fun r => decide (10 ≤ r.bmi) && decide (r.bmi ≤ 60))).length := by
  unfold analyze_cohorts
  rw [List.map_map]
  have hmap : (groupByRange (withBmiRange (filterBMI rows))).map
        ((fun c => c.patient_count) ∘ (fun p => aggGroup p.1 p.2))
      = (groupByRange (withBmiRange (filterBMI rows))).map (fun p => p.2.length) :=
    List.map_congr_left (fun p _ => rfl)
  rw [hmap, groupByRange_length_sum]
  unfold withBmiRange filterBMI
  rw [List.length_map]

/-- C4: for every output group, `avg_glucose` is the arithmetic mean of
the Glucose values of the filtered rows carrying that `bmi_range`, and
`avg_age` the arithmetic mean of their Age values. -/
theorem avg_glucose_avg_age_mean (rows : List PatientRow) (out : CohortRow)
    (h : out ∈ analyze_cohorts rows) :
    out.avg_glucose = (((withBmiRange (filterBMI rows)).filter
        (fun x => decide (x.bmi_range = out.bmi_range))).map (fun x => x.glucose)).sum
      / ((((withBmiRange (filterBMI rows)).filter
        (fun x => decide (x.bmi_range = out.bmi_range))).length : ℚ)) ∧
    out.avg_age = (((withBmiRange (filterBMI rows)).filter
        (fun x => decide (x.bmi_range = out.bmi_range))).map (fun x => x.age)).sum
      / ((((withBmiRange (filterBMI rows)).filter
        (fun x => decide (x.bmi_range = out.bmi_range))).length : ℚ)) := by
  rcases List.mem_map.mp h with ⟨p, hp, rfl⟩
  have h2 := groupByRange_snd_eq_filter _ p hp
  constructor <;> simp only [aggGroup] <;> rw [h2]

theorem avg_glucose_avg_age_mean_witness :
    (⟨"Normal", 100, 1, 30⟩ : CohortRow).avg_glucose
        = (((withBmiRange (filterBMI [⟨22, 100, 30⟩])).filter
            (fun x => decide (x.bmi_range = ("Normal" : String)))).map
              (fun x => x.glucose)).sum
          / ((((withBmiRange (filterBMI [⟨22, 100, 30⟩])).filter
            (fun x => decide (x.bmi_range = ("Normal" : String)))).length : ℚ)) :=
  (avg_glucose_avg_age_mean [⟨22, 100, 30⟩] ⟨"Normal", 100, 1, 30⟩
    (by norm_num [analyze_cohorts, groupByRange, withBmiRange, filterBMI, bmiCategory,
      aggGroup])).1

/-- C7: a missing input path yields the `FileNotFoundError` of line 20
before any processing, with the file system untouched; an existing path
never yields that error. -/
theorem file_not_found_check (csvParse : Option (List PatientRow)) (columnsOk : Bool)
    (fs : FileState) :
    analyze_patient_cohorts false csvParse columnsOk fs
        = (Except.error AnalyzeError.fileNotFound, fs) ∧
    (∀ res fs2, analyze_patient_cohorts true csvParse columnsOk fs = (res, fs2) →
      res ≠ Except.error AnalyzeError.fileNotFound) := by
  refine ⟨rfl, ?_⟩
  intro res fs2 hres
  cases csvParse with
  | none =>
    simp only [analyze_patient_cohorts] at hres
    rw [if_neg (by simp)] at hres
    injection hres with h1 h2
    rw [← h1]
    simp
  | some rows =>
    cases columnsOk with
    | false =>
      simp only [analyze_patient_cohorts] at hres
      rw [if_neg (by simp), if_pos trivial] at hres
      injection hres with h1 h2
      rw [← h1]
      simp
    | true =>
      simp only [analyze_patient_cohorts] at hres
      rw [if_neg (by simp), if_neg (by simp)] at hres
      injection hres with h1 h2
      rw [← h1]
      simp

theorem file_not_found_check_witness :
    analyze_patient_cohorts false none true ⟨false⟩
      = (Except.error AnalyzeError.fileNotFound, ⟨false⟩) :=
  (file_not_found_check none true ⟨false⟩).1

/-- C2 evidence: when the input exists, the CSV parses (here to the empty
table) and the scan/collect pipeline then fails, the function returns the
error with the transient `patients_large.parquet` artifact still on disk:
the cleanup at lines 51–52 runs only on the success path. -/
theorem parquet_left_behind_on_failure :
    analyze_patient_cohorts true (some []) false ⟨false⟩
      = (Except.error AnalyzeError.processError, ⟨true⟩) := rfl

end Cohort

namespace Cleaner

theorem char_toNat_ofNat {n : Nat} (h : n < 55296) : (Char.ofNat n).toNat = n := by
  rw [Char.ofNat, dif_pos (Or.inl h)]
  rfl

theorem uint32_le_iff (a b : UInt32) : a ≤ b ↔ a.toNat ≤ b.toNat := by
  simp [UInt32.le_def, BitVec.le_def, UInt32.toNat]

theorem isAlpha_iff (c : Char) :
    c.isAlpha = true ↔ ((65 ≤ c.toNat ∧ c.toNat ≤ 90) ∨ (97 ≤ c.toNat ∧ c.toNat ≤ 122)) := by
  simp [Char.isAlpha, Char.isUpper, Char.isLower, uint32_le_iff, Char.toNat]
  norm_num

theorem toUpper_toUpper (c : Char) : c.toUpper.toUpper = c.toUpper := by
  simp only [Char.toUpper]
  by_cases h : c.toNat ≥ 97 ∧ c.toNat ≤ 122
  · rw [if_pos h]
    have hv : (Char.ofNat (c.toNat - 32)).toNat = c.toNat - 32 := char_toNat_ofNat (by omega)
    rw [if_neg (by rw [hv]; omega)]
  · rw [if_neg h, if_neg h]

theorem toLower_toLower (c : Char) : c.toLower.toLower = c.toLower := by
  simp only [Char.toLower]
  by_cases h : c.toNat ≥ 65 ∧ c.toNat ≤ 90
  · rw [if_pos h]
    have hv : (Char.ofNat (c.toNat + 32)).toNat = c.toNat + 32 := char_toNat_ofNat (by omega)
    rw [if_neg (by rw [hv]; omega)]
  · rw [if_neg h, if_neg h]

theorem isAlpha_toUpper (c : Char) : c.toUpper.isAlpha = c.isAlpha := by
  simp only [Char.toUpper]
  by_cases h : c.toNat ≥ 97 ∧ c.toNat ≤ 122
  · rw [if_pos h]
    have hv : (Char.ofNat (c.toNat - 32)).toNat = c.toNat - 32 := char_toNat_ofNat (by omega)
    have h1 : (Char.ofNat (c.toNat - 32)).isAlpha = true := by rw [isAlpha_iff, hv]; omega
    have h2 : c.isAlpha = true := by rw [isAlpha_iff]; omega
    rw [h1, h2]
  · rw [if_neg h]

theorem isAlpha_toLower (c : Char) : c.toLower.isAlpha = c.isAlpha := by
  simp only [Char.toLower]
  by_cases h : c.toNat ≥ 65 ∧ c.toNat ≤ 90
  · rw [if_pos h]
    have hv : (Char.ofNat (c.toNat + 32)).toNat = c.toNat + 32 := char_toNat_ofNat (by omega)
    have h1 : (Char.ofNat (c.toNat + 32)).isAlpha = true := by rw [isAlpha_iff, hv]; omega
    have h2 : c.isAlpha = true := by rw [isAlpha_iff]; omega
    rw [h1, h2]
  · rw [if_neg h]

theorem pyTitleAux_idem : ∀ (l : List Char) (b : Bool),
    pyTitleAux b (pyTitleAux b l) = pyTitleAux b l
  | [], _ => rfl
  | c :: rest, b => by
    by_cases h : c.isAlpha = true
    · cases b with
      | false =>
        simp [pyTitleAux, h, isAlpha_toUpper, toUpper_toUpper, pyTitleAux_idem rest true]
      | true =>
        simp [pyTitleAux, h, isAlpha_toLower, toLower_toLower, pyTitleAux_idem rest true]
    · have h2 : c.isAlpha = false := by revert h; cases c.isAlpha <;> simp
      cases b <;> simp [pyTitleAux, h2, pyTitleAux_idem rest false]

/-- C9: the name normalization of line 85 (`str.title()`) is idempotent:
normalizing an already title-cased string returns it unchanged. -/
theorem pyTitle_idempotent (s : String) : pyTitle (pyTitle s) = pyTitle s := by
  unfold pyTitle
  exact congrArg String.mk (pyTitleAux_idem s.data false)

end Cleaner

namespace Cleaner

theorem ageAt_cons_zero (pn : Patient × Int) (rest : List (Patient × Int)) :
    ageAt (pn :: rest) 0 = pn.2 := rfl

theorem ageAt_cons_succ (pn : Patient × Int) (rest : List (Patient × Int)) (j : Nat) :
    ageAt (pn :: rest) (j + 1) = ageAt rest j := rfl

theorem keyAt_cons_zero (pn : Patient × Int) (rest : List (Patient × Int)) :
    keyAt (pn :: rest) 0 = canonKey pn.1 := rfl

theorem keyAt_cons_succ (pn : Patient × Int) (rest : List (Patient × Int)) (j : Nat) :
    keyAt (pn :: rest) (j + 1) = keyAt rest j := rfl

theorem exists_nat_split {P : Nat → Prop} : (∃ j, P j) ↔ P 0 ∨ ∃ j, P (j + 1) := by
  constructor
  · rintro ⟨j, h⟩
    cases j with
    | zero => exact Or.inl h
    | succ j2 => exact Or.inr ⟨j2, h⟩
  · rintro (h | ⟨j, h⟩)
    · exact ⟨0, h⟩
    · exact ⟨j + 1, h⟩

theorem forall_lt_succ_split {Q : Nat → Prop} (j : Nat) :
    (∀ j2, j2 < j + 1 → Q j2) ↔ Q 0 ∧ ∀ j2, j2 < j → Q (j2 + 1) := by
  constructor
  · intro h
    exact ⟨h 0 (Nat.succ_pos _), fun j2 hj2 => h (j2 + 1) (Nat.succ_lt_succ hj2)⟩
  · rintro ⟨h0, h⟩ j2 hj2
    cases j2 with
    | zero => exact h0
    | succ j3 => exact h j3 (Nat.lt_of_succ_lt_succ hj2)

theorem selectIdx_mem_iff : ∀ (ns : List (Patient × Int)) (seen0 : List Patient) (k i : Nat),
    i ∈ selectIdx seen0 k ns ↔
      ∃ j, i = k + j ∧ j < ns.length ∧ 18 ≤ ageAt ns j ∧ keyAt ns j ∉ seen0 ∧
        ∀ j2, j2 < j → 18 ≤ ageAt ns j2 → keyAt ns j2 ≠ keyAt ns j
  | [], seen0, k, i => by simp [selectIdx]
  | pn :: rest, seen0, k, i => by
    rw [exists_nat_split]
    simp only [selectIdx, List.length_cons, ageAt_cons_zero, ageAt_cons_succ,
      keyAt_cons_zero, keyAt_cons_succ]
    by_cases hp : (18 : Int) ≤ pn.2
    · by_cases hs : canonKey pn.1 ∈ seen0
      · rw [if_pos hp, if_pos hs, selectIdx_mem_iff rest seen0 (k + 1) i]
        constructor
        · rintro ⟨j, rfl, hj, ha, hk, hfirst⟩
          refine Or.inr ⟨j, by omega, by omega, ha, hk, ?_⟩
          rw [forall_lt_succ_split]
          refine ⟨fun _ he => hk (he ▸ hs), fun j2 h2 ha2 => hfirst j2 h2 ha2⟩
        · rintro (⟨_, _, _, hk, _⟩ | ⟨j, hi, hj, ha, hk, hfirst⟩)
          · exact absurd hs hk
          · rw [forall_lt_succ_split] at hfirst
            exact ⟨j, by omega, by omega, ha, hk, hfirst.2⟩
      · rw [if_pos hp, if_neg hs, List.mem_cons,
          selectIdx_mem_iff rest (canonKey pn.1 :: seen0) (k + 1) i]
        constructor
        · rintro (rfl | ⟨j, rfl, hj, ha, hk, hfirst⟩)
          · exact Or.inl ⟨by omega, by omega, hp, hs, by omega⟩
          · have hk1 : keyAt rest j ∉ seen0 := fun hm => hk (List.mem_cons_of_mem _ hm)
            have hk2 : keyAt rest j ≠ canonKey pn.1 :=
              fun he => hk (he ▸ List.mem_cons_self _ _)
            refine Or.inr ⟨j, by omega, by omega, ha, hk1, ?_⟩
            rw [forall_lt_succ_split]
            exact ⟨fun _ => hk2.symm ∘ Eq.symm ∘ Eq.symm, fun j2 h2 ha2 => hfirst j2 h2 ha2⟩
        · rintro (⟨hi, _, _, _, _⟩ | ⟨j, hi, hj, ha, hk, hfirst⟩)
          · exact Or.inl (by omega)
          · rw [forall_lt_succ_split] at hfirst
            refine Or.inr ⟨j, by omega, by omega, ha, ?_, hfirst.2⟩
            intro hm
            rcases List.mem_cons.mp hm with he | hm2
            · exact hfirst.1 hp he.symm
            · exact hk hm2
    · rw [if_neg hp, selectIdx_mem_iff rest seen0 (k + 1) i]
      constructor
      · rintro ⟨j, rfl, hj, ha, hk, hfirst⟩
        refine Or.inr ⟨j, by omega, by omega, ha, hk, ?_⟩
        rw [forall_lt_succ_split]
        exact ⟨fun hp2 _ => absurd hp2 hp, fun j2 h2 ha2 => hfirst j2 h2 ha2⟩
      · rintro (⟨_, _, hp2, _, _⟩ | ⟨j, hi, hj, ha, hk, hfirst⟩)
        · exact absurd hp2 hp
        · rw [forall_lt_succ_split] at hfirst
          exact ⟨j, by omega, by omega, ha, hk, hfirst.2⟩

theorem cleanStep_of_pass_new {pn : Patient × Int} {st : CleanState} (k : Nat)
    (h1 : 18 ≤ pn.2) (h2 : canonKey pn.1 ∉ st.seen) :
    cleanStep k pn st = ⟨st.mutated ++ [pn.1], canonKey pn.1 :: st.seen,
      st.survivors ++ [k]⟩ := by
  simp only [cleanStep]
  rw [if_pos h1, if_neg h2]

theorem cleanStep_of_pass_seen {pn : Patient × Int} {st : CleanState} (k : Nat)
    (h1 : 18 ≤ pn.2) (h2 : canonKey pn.1 ∈ st.seen) :
    cleanStep k pn st = ⟨st.mutated ++ [pn.1], st.seen, st.survivors⟩ := by
  simp only [cleanStep]
  rw [if_pos h1, if_pos h2]

theorem cleanStep_of_fail {pn : Patient × Int} {st : CleanState} (k : Nat)
    (h1 : ¬ 18 ≤ pn.2) :
    cleanStep k pn st = ⟨st.mutated ++ [pn.1], st.seen, st.survivors⟩ := by
  simp only [cleanStep]
  rw [if_neg h1]

theorem cleanStep_mutated (k : Nat) (pn : Patient × Int) (st : CleanState) :
    (cleanStep k pn st).mutated = st.mutated ++ [pn.1] := by
  by_cases h1 : 18 ≤ pn.2
  · by_cases h2 : canonKey pn.1 ∈ st.seen
    · rw [cleanStep_of_pass_seen k h1 h2]
    · rw [cleanStep_of_pass_new k h1 h2]
  · rw [cleanStep_of_fail k h1]

theorem cleanPure_mutated : ∀ (ns : List (Patient × Int)) (k : Nat) (st : CleanState),
    (cleanPure k ns st).mutated = st.mutated ++ ns.map (fun pn => pn.1)
  | [], _, _ => by simp [cleanPure]
  | pn :: rest, k, st => by
    rw [cleanPure, cleanPure_mutated rest (k + 1) (cleanStep k pn st), cleanStep_mutated]
    simp

theorem cleanPure_survivors : ∀ (ns : List (Patient × Int)) (k : Nat) (st : CleanState),
    (cleanPure k ns st).survivors = st.survivors ++ selectIdx st.seen k ns
  | [], _, _ => by simp [cleanPure, selectIdx]
  | pn :: rest, k, st => by
    rw [cleanPure]
    by_cases h1 : 18 ≤ pn.2
    · by_cases h2 : canonKey pn.1 ∈ st.seen
      · rw [cleanStep_of_pass_seen k h1 h2, cleanPure_survivors rest (k + 1) _]
        simp only [selectIdx]
        rw [if_pos h1, if_pos h2]
      · rw [cleanStep_of_pass_new k h1 h2, cleanPure_survivors rest (k + 1) _]
        simp only [selectIdx]
        rw [if_pos h1, if_neg h2]
        simp
    · rw [cleanStep_of_fail k h1, cleanPure_survivors rest (k + 1) _]
      simp only [selectIdx]
      rw [if_neg h1]

theorem cleanAll_eq : ∀ (l : List Patient) (k : Nat) (st : CleanState),
    cleanAll k l st = (normAll l).map (fun ns => cleanPure k ns st)
  | [], _, _ => rfl
  | p :: rest, k, st => by
    cases hn : normalizeRecord p with
    | error e => simp [cleanAll, normAll, hn, Except.map]
    | ok pn =>
      simp only [cleanAll, normAll, hn]
      rw [cleanAll_eq rest (k + 1) (cleanStep k pn st)]
      cases normAll rest <;> rfl

theorem normAll_length : ∀ {l : List Patient} {ns : List (Patient × Int)},
    normAll l = .ok ns → ns.length = l.length
  | [], ns, h => by
    simp only [normAll] at h
    cases h
    rfl
  | p :: rest, ns, h => by
    simp only [normAll] at h
    cases hn : normalizeRecord p with
    | error e => rw [hn] at h; exact absurd h (by simp)
    | ok pn =>
      rw [hn] at h
      cases hr : normAll rest with
      | error e => rw [hr] at h; exact absurd h (by simp [Except.map])
      | ok ns2 =>
        rw [hr] at h
        simp only [Except.map] at h
        cases h
        simp [normAll_length hr]

theorem normAll_getD : ∀ {l : List Patient} {ns : List (Patient × Int)},
    normAll l = .ok ns → ∀ i, i < l.length →
      normalizeRecord (l.getD i []) = .ok (ns.getD i ([], 0))
  | [], _, _, i, hi => absurd hi (by simp)
  | p :: rest, ns, h, i, hi => by
    simp only [normAll] at h
    cases hn : normalizeRecord p with
    | error e => rw [hn] at h; exact absurd h (by simp)
    | ok pn =>
      rw [hn] at h
      cases hr : normAll rest with
      | error e => rw [hr] at h; exact absurd h (by simp [Except.map])
      | ok ns2 =>
        rw [hr] at h
        simp only [Except.map] at h
        cases h
        cases i with
        | zero => simpa using hn
        | succ i2 =>
          have := normAll_getD hr i2 (by simpa using hi)
          simpa using this

theorem run_state {ps : List Patient} {ns : List (Patient × Int)} {st : CleanState}
    (hn : normAll ps = .ok ns) (hc : cleanAll 0 ps initState = .ok st) :
    st.mutated = ns.map (fun pn => pn.1) ∧ st.survivors = selectIdx [] 0 ns := by
  have he := cleanAll_eq ps 0 initState
  rw [hn, hc] at he
  simp only [Except.map] at he
  cases he
  rw [cleanPure_mutated, cleanPure_survivors]
  exact ⟨by simp [initState], by simp [initState]⟩

theorem selectIdx_ge {ns : List (Patient × Int)} {seen0 : List Patient} {k i : Nat}
    (h : i ∈ selectIdx seen0 k ns) : k ≤ i := by
  rcases (selectIdx_mem_iff ns seen0 k i).mp h with ⟨j, rfl, _⟩
  omega

theorem selectIdx_sorted : ∀ (ns : List (Patient × Int)) (seen0 : List Patient) (k : Nat),
    List.Sorted (fun a b : Nat => a < b) (selectIdx seen0 k ns)
  | [], _, _ => by simp [selectIdx]
  | pn :: rest, seen0, k => by
    simp only [selectIdx]
    by_cases h1 : 18 ≤ pn.2
    · by_cases h2 : canonKey pn.1 ∈ seen0
      · rw [if_pos h1, if_pos h2]
        exact selectIdx_sorted rest seen0 (k + 1)
      · rw [if_pos h1, if_neg h2, List.sorted_cons]
        exact ⟨fun b hb => Nat.lt_of_lt_of_le (Nat.lt_succ_self k) (selectIdx_ge hb),
          selectIdx_sorted rest _ (k + 1)⟩
    · rw [if_neg h1]
      exact selectIdx_sorted rest seen0 (k + 1)

theorem find_map_set {k : String} {v : PValue} :
    ∀ (p : Patient),
      (p.map (fun kv => if kv.1 == k then (k, v) else kv)).find? (fun kv => kv.1 == k)
        = (p.find? (fun kv => kv.1 == k)).map (fun _ => (k, v))
  | [] => rfl
  | kv :: rest => by
    by_cases h : kv.1 = k
    · have hb : (kv.1 == k) = true := by simp [h]
      simp only [List.map_cons, hb, if_true]
      rw [List.find?_cons_of_pos (p := fun kv : String × PValue => kv.1 == k) _ (by simp),
        List.find?_cons_of_pos (p := fun kv : String × PValue => kv.1 == k) _ hb]
      rfl
    · have hb : (kv.1 == k) = false := by simp [h]
      simp only [List.map_cons, hb, Bool.false_eq_true, if_false]
      rw [List.find?_cons_of_neg (p := fun kv : String × PValue => kv.1 == k) _ (by simp [hb]),
        List.find?_cons_of_neg (p := fun kv : String × PValue => kv.1 == k) _ (by simp [hb])]
      exact find_map_set rest

theorem find_map_set_ne {k k2 : String} {v : PValue} (hne : k2 ≠ k) :
    ∀ (p : Patient),
      (p.map (fun kv => if kv.1 == k then (k, v) else kv)).find? (fun kv => kv.1 == k2)
        = p.find? (fun kv => kv.1 == k2)
  | [] => rfl
  | kv :: rest => by
    by_cases h : kv.1 = k
    · have hb : (kv.1 == k) = true := by simp [h]
      simp only [List.map_cons, hb, if_true]
      rw [List.find?_cons_of_neg (p := fun kv : String × PValue => kv.1 == k2) _
          (by simp; exact fun he => hne he.symm),
        List.find?_cons_of_neg (p := fun kv : String × PValue => kv.1 == k2) _
          (by simp [h]; exact fun he => hne he.symm)]
      exact find_map_set_ne hne rest
    · have hb : (kv.1 == k) = false := by simp [h]
      simp only [List.map_cons, hb, Bool.false_eq_true, if_false]
      by_cases h2 : kv.1 = k2
      · rw [List.find?_cons_of_pos (p := fun kv : String × PValue => kv.1 == k2) _ (by simp [h2]),
          List.find?_cons_of_pos (p := fun kv : String × PValue => kv.1 == k2) _ (by simp [h2])]
      · rw [List.find?_cons_of_neg (p := fun kv : String × PValue => kv.1 == k2) _ (by simp [h2]),
          List.find?_cons_of_neg (p := fun kv : String × PValue => kv.1 == k2) _ (by simp [h2])]
        exact find_map_set_ne hne rest

theorem dictGet_dictSet_same (p : Patient) (k : String) (v : PValue) :
    dictGet (dictSet p k v) k = some v := by
  unfold dictGet dictSet
  by_cases h : p.any (fun kv => kv.1 == k)
  · rw [if_pos h, find_map_set p]
    rcases List.any_eq_true.mp h with ⟨x, hx, hpx⟩
    cases hf : p.find? (fun kv => kv.1 == k) with
    | none =>
      rw [List.find?_eq_none] at hf
      exact absurd hpx (hf x hx)
    | some kv => rfl
  · rw [if_neg h, List.find?_append]
    have h2 : p.find? (fun kv => kv.1 == k) = none := by
      rw [List.find?_eq_none]
      intro x hx hpx
      exact h (List.any_eq_true.mpr ⟨x, hx, hpx⟩)
    rw [h2]
    rw [List.find?_cons_of_pos (p := fun kv : String × PValue => kv.1 == k) _ (by simp)]
    rfl

theorem dictGet_dictSet_ne (p : Patient) {k k2 : String} (v : PValue) (hne : k2 ≠ k) :
    dictGet (dictSet p k v) k2 = dictGet p k2 := by
  unfold dictGet dictSet
  by_cases h : p.any (fun kv => kv.1 == k)
  · rw [if_pos h, find_map_set_ne hne]
  · rw [if_neg h, List.find?_append]
    have h1 : List.find? (fun kv => kv.1 == k2) [(k, v)] = none := by
      rw [List.find?_cons_of_neg (p := fun kv : String × PValue => kv.1 == k2) _
        (by simp; exact fun he => hne he.symm)]
      rfl
    rw [h1]
    cases p.find? (fun kv => kv.1 == k2) <;> rfl

theorem normalizeRecord_spec {p p' : Patient} {n : Int}
    (h : normalizeRecord p = .ok (p', n)) :
    ∃ s, dictGet p "name" = some (.str s) ∧
      p' = dictSet (dictSet p "name" (.str (pyTitle s))) "age" (.int n) ∧
      pyInt ((dictGet p "age").getD (.int 0)) = some n := by
  unfold normalizeRecord at h
  cases hg : dictGet p "name" with
  | none => rw [hg] at h; exact absurd h (by simp)
  | some v =>
    rw [hg] at h
    cases v with
    | int m => exact absurd h (by simp)
    | str s =>
      simp only at h
      cases hi : pyInt ((dictGet (dictSet p "name" (.str (pyTitle s))) "age").getD (.int 0)) with
      | none => rw [hi] at h; exact absurd h (by simp)
      | some m =>
        rw [hi] at h
        simp only [Except.ok.injEq, Prod.mk.injEq] at h
        obtain ⟨h1, h2⟩ := h
        subst h2
        refine ⟨s, rfl, h1.symm, ?_⟩
        rw [← @dictGet_dictSet_ne p "name" "age" (PValue.str (pyTitle s))
          (by decide), hi]

theorem canonKey_perm (p : Patient) : List.Perm (canonKey p) p :=
  List.perm_insertionSort _ p

theorem char_eq_of_toNat_eq {c d : Char} (h : c.toNat = d.toNat) : c = d := by
  have h1 : Char.ofNat c.toNat = Char.ofNat d.toNat := by rw [h]
  rwa [Char.ofNat_toNat, Char.ofNat_toNat] at h1

theorem lexLE_total : ∀ (x y : List Char), lexLE x y = true ∨ lexLE y x = true
  | [], _ => Or.inl rfl
  | _ :: _, [] => Or.inr rfl
  | c :: cs, d :: ds => by
    simp only [lexLE]
    by_cases h1 : c.toNat < d.toNat
    · left
      rw [if_pos h1]
    by_cases h2 : d.toNat < c.toNat
    · right
      rw [if_pos h2]
    rw [if_neg h1, if_neg h2, if_neg h2, if_neg h1]
    exact lexLE_total cs ds

theorem lexLE_trans : ∀ (x y z : List Char),
    lexLE x y = true → lexLE y z = true → lexLE x z = true
  | [], _, _ => fun _ _ => rfl
  | _ :: _, [], _ => fun h _ => by simp [lexLE] at h
  | _ :: _, _ :: _, [] => fun _ h => by simp [lexLE] at h
  | c :: cs, d :: ds, e :: es => fun h1 h2 => by
    simp only [lexLE] at h1 h2 ⊢
    by_cases hcd : c.toNat < d.toNat
    · by_cases hde : d.toNat < e.toNat
      · rw [if_pos (by omega)]
      by_cases hed : e.toNat < d.toNat
      · rw [if_neg hde, if_pos hed] at h2
        exact absurd h2 (by simp)
      · rw [if_pos (by omega)]
    by_cases hdc : d.toNat < c.toNat
    · rw [if_neg hcd, if_pos hdc] at h1
      exact absurd h1 (by simp)
    · rw [if_neg hcd, if_neg hdc] at h1
      by_cases hde : d.toNat < e.toNat
      · rw [if_pos (by omega)]
      by_cases hed : e.toNat < d.toNat
      · rw [if_neg hde, if_pos hed] at h2
        exact absurd h2 (by simp)
      · rw [if_neg hde, if_neg hed] at h2
        rw [if_neg (by omega), if_neg (by omega)]
        exact lexLE_trans cs ds es h1 h2

theorem lexLE_antisymm : ∀ {x y : List Char},
    lexLE x y = true → lexLE y x = true → x = y
  | [], [], _, _ => rfl
  | [], _ :: _, _, h2 => by simp [lexLE] at h2
  | _ :: _, [], h1, _ => by simp [lexLE] at h1
  | c :: cs, d :: ds, h1, h2 => by
    simp only [lexLE] at h1 h2
    by_cases hcd : c.toNat < d.toNat
    · rw [if_neg (by omega), if_pos hcd] at h2
      exact absurd h2 (by simp)
    by_cases hdc : d.toNat < c.toNat
    · rw [if_neg hcd, if_pos hdc] at h1
      exact absurd h1 (by simp)
    · rw [if_neg hcd, if_neg hdc] at h1
      rw [if_neg hdc, if_neg hcd] at h2
      rw [char_eq_of_toNat_eq (by omega : c.toNat = d.toNat),
        lexLE_antisymm h1 h2]

theorem string_eq_of_data_eq {a b : String} (h : a.data = b.data) : a = b :=
  String.ext h

theorem canonKey_sorted (p : Patient) :
    List.Sorted (fun a b : String × PValue => lexLE a.1.data b.1.data = true)
      (canonKey p) := by
  haveI : IsTotal (String × PValue) (fun a b => lexLE a.1.data b.1.data = true) :=
    ⟨fun a b => lexLE_total a.1.data b.1.data⟩
  haveI : IsTrans (String × PValue) (fun a b => lexLE a.1.data b.1.data = true) :=
    ⟨fun a b c h1 h2 => lexLE_trans a.1.data b.1.data c.1.data h1 h2⟩
  exact List.sorted_insertionSort _ p

theorem canonKey_keys_nodup {p : Patient} (hp : (p.map Prod.fst).Nodup) :
    ((canonKey p).map Prod.fst).Nodup :=
  (List.Perm.nodup_iff ((canonKey_perm p).map Prod.fst)).mpr hp

theorem canonKey_sorted_strict {p : Patient} (hp : (p.map Prod.fst).Nodup) :
    List.Sorted (fun a b : String × PValue =>
      lexLE a.1.data b.1.data = true ∧ a.1 ≠ b.1) (canonKey p) := by
  have hs := canonKey_sorted p
  have hpw : (canonKey p).Pairwise (fun a b => Prod.fst a ≠ Prod.fst b) :=
    List.pairwise_map.mp (canonKey_keys_nodup hp)
  exact hs.and hpw

theorem canonKey_eq_of_perm {p q : Patient} (hpq : List.Perm p q)
    (hp : (p.map Prod.fst).Nodup) : canonKey p = canonKey q := by
  have hq : (q.map Prod.fst).Nodup := (List.Perm.nodup_iff (hpq.map Prod.fst)).mp hp
  have hperm : List.Perm (canonKey p) (canonKey q) :=
    (canonKey_perm p).trans (hpq.trans (canonKey_perm q).symm)
  haveI : IsAntisymm (String × PValue)
      (fun a b => lexLE a.1.data b.1.data = true ∧ a.1 ≠ b.1) :=
    ⟨fun a b h1 h2 =>
      absurd (string_eq_of_data_eq (lexLE_antisymm h1.1 h2.1)) h1.2⟩
  exact List.eq_of_perm_of_sorted hperm (canonKey_sorted_strict hp)
    (canonKey_sorted_strict hq)

theorem dictGet_eq_some_iff {p : Patient} (hp : (p.map Prod.fst).Nodup)
    {k : String} {v : PValue} : dictGet p k = some v ↔ (k, v) ∈ p := by
  constructor
  · intro h
    unfold dictGet at h
    cases hf : p.find? (fun kv => kv.1 == k) with
    | none => rw [hf] at h; simp at h
    | some kv =>
      rw [hf] at h
      simp only [Option.map] at h
      cases h
      have h1 : kv.1 = k := by simpa using List.find?_some hf
      have h2 := List.mem_of_find?_eq_some hf
      have h3 : kv = (k, kv.2) := by rw [← h1]
      rwa [← h3]
  · intro h
    cases hf : p.find? (fun kv => kv.1 == k) with
    | none =>
      rw [List.find?_eq_none] at hf
      exact absurd (by simp : (((k, v) : String × PValue).1 == k) = true) (hf _ h)
    | some kv =>
      have h1 : kv.1 = k := by simpa using List.find?_some hf
      have h2 := List.mem_of_find?_eq_some hf
      have h3 : kv = (k, v) :=
        List.inj_on_of_nodup_map hp h2 h (by simpa using h1)
      unfold dictGet
      rw [hf, h3]
      rfl

theorem dictGet_eq_none_iff {p : Patient} {k : String} :
    dictGet p k = none ↔ k ∉ p.map Prod.fst := by
  constructor
  · intro h hm
    rcases List.mem_map.mp hm with ⟨kv, hkv, hfst⟩
    unfold dictGet at h
    cases hf : p.find? (fun kv => kv.1 == k) with
    | some kv2 => rw [hf] at h; simp at h
    | none =>
      rw [List.find?_eq_none] at hf
      exact absurd (by simp [hfst]) (hf kv hkv)
  · intro h
    unfold dictGet
    have hn : p.find? (fun kv => kv.1 == k) = none := by
      rw [List.find?_eq_none]
      intro kv hkv hb
      exact h (List.mem_map.mpr ⟨kv, hkv, by simpa using hb⟩)
    rw [hn]
    rfl

theorem lookup_eq_of_perm {p q : Patient} (hp : (p.map Prod.fst).Nodup)
    (hpq : List.Perm p q) (k : String) : dictGet p k = dictGet q k := by
  have hq : (q.map Prod.fst).Nodup := (List.Perm.nodup_iff (hpq.map Prod.fst)).mp hp
  cases hg : dictGet p k with
  | some v =>
    rw [dictGet_eq_some_iff hp] at hg
    exact ((dictGet_eq_some_iff hq).mpr (hpq.mem_iff.mp hg)).symm
  | none =>
    rw [dictGet_eq_none_iff] at hg
    have h2 : k ∉ q.map Prod.fst := fun hm => hg ((hpq.map Prod.fst).mem_iff.mpr hm)
    exact (dictGet_eq_none_iff.mpr h2).symm

theorem perm_of_lookup_eq {p q : Patient} (hp : (p.map Prod.fst).Nodup)
    (hq : (q.map Prod.fst).Nodup) (h : ∀ k, dictGet p k = dictGet q k) :
    List.Perm p q := by
  have hmem : ∀ x : String × PValue, x ∈ p ↔ x ∈ q := by
    rintro ⟨k, v⟩
    rw [← dictGet_eq_some_iff hp, ← dictGet_eq_some_iff hq, h k]
  exact (List.perm_ext_iff_of_nodup (List.Nodup.of_map Prod.fst hp)
    (List.Nodup.of_map Prod.fst hq)).mpr hmem

theorem canonKey_eq_iff {p q : Patient} (hp : (p.map Prod.fst).Nodup)
    (hq : (q.map Prod.fst).Nodup) :
    canonKey p = canonKey q ↔ ∀ k, dictGet p k = dictGet q k := by
  constructor
  · intro h k
    have hperm : List.Perm p q :=
      ((canonKey_perm p).symm.trans (h ▸ canonKey_perm q))
    exact lookup_eq_of_perm hp hperm k
  · intro h
    exact canonKey_eq_of_perm (perm_of_lookup_eq hp hq h) hp

theorem getD_map_fst {ns : List (Patient × Int)} {i : Nat} (hi : i < ns.length) :
    (ns.map (fun pn => pn.1)).getD i [] = (ns.getD i ([], 0)).1 := by
  simp [List.getD_eq_getElem?_getD, List.getElem?_map, List.getElem?_eq_getElem hi]

/-- C8: in any successful run the output lists the surviving records in
the relative order of their first occurrence in the input (survivor
positions strictly increase), membership among positions is exactly
`survivesSpec` (age ≥ 18 and no earlier age-passing duplicate), and the
empty input yields an empty output with no error. -/
theorem cleaner_output_order :
    clean_patient_data [] = Except.ok [] ∧
    ∀ (ps : List Patient) (ns : List (Patient × Int)) (st : CleanState),
      normAll ps = Except.ok ns → cleanAll 0 ps initState = Except.ok st →
      List.Sorted (fun a b : Nat => a < b) st.survivors ∧
      (∀ i, i ∈ st.survivors ↔ survivesSpec ns i) ∧
      clean_patient_data ps
        = Except.ok (st.survivors.map (fun i => st.mutated.getD i [])) := by
  refine ⟨rfl, ?_⟩
  intro ps ns st hn hc
  obtain ⟨hmut, hsurv⟩ := run_state hn hc
  refine ⟨?_, ?_, ?_⟩
  · rw [hsurv]
    exact selectIdx_sorted ns [] 0
  · intro i
    rw [hsurv, selectIdx_mem_iff]
    unfold survivesSpec
    constructor
    · rintro ⟨j, hij, hj, ha, _, hfirst⟩
      have hji : j = i := by omega
      subst hji
      exact ⟨hj, ha, hfirst⟩
    · rintro ⟨hi, ha, hfirst⟩
      exact ⟨i, by omega, hi, ha, by simp, hfirst⟩
  · unfold clean_patient_data
    rw [hc]
    rfl

theorem cleaner_output_order_witness :
    clean_patient_data
        [[("name", PValue.str "al ice"), ("age", PValue.str "18"),
          ("gender", PValue.str "f"), ("diagnosis", PValue.str "flu")]]
      = Except.ok [[("name", PValue.str "Al Ice"), ("age", PValue.int 18),
          ("gender", PValue.str "f"), ("diagnosis", PValue.str "flu")]] :=
  (cleaner_output_order.2
    [[("name", PValue.str "al ice"), ("age", PValue.str "18"),
      ("gender", PValue.str "f"), ("diagnosis", PValue.str "flu")]]
    [([("name", PValue.str "Al Ice"), ("age", PValue.int 18),
      ("gender", PValue.str "f"), ("diagnosis", PValue.str "flu")], 18)]
    ⟨[[("name", PValue.str "Al Ice"), ("age", PValue.int 18),
        ("gender", PValue.str "f"), ("diagnosis", PValue.str "flu")]],
      [[("age", PValue.int 18), ("diagnosis", PValue.str "flu"),
        ("gender", PValue.str "f"), ("name", PValue.str "Al Ice")]],
      [0]⟩
    (by rfl) (by rfl)).2.2

/-- C5: in a successful run, the age used by the filter is
`int(patient.get("age", 0))`, a position can only survive when that age
is ≥ 18, and an age-passing position with no earlier age-passing
duplicate does survive; concretely, a record with age 18 is kept and a
record with age 17 is dropped. -/
theorem cleaner_age_threshold :
    (∀ (ps : List Patient) (ns : List (Patient × Int)) (st : CleanState),
      normAll ps = Except.ok ns → cleanAll 0 ps initState = Except.ok st →
      ∀ i, i < ps.length →
        pyInt ((dictGet (ps.getD i []) "age").getD (.int 0)) = some (ageAt ns i) ∧
        (i ∈ st.survivors → 18 ≤ ageAt ns i) ∧
        ((18 ≤ ageAt ns i ∧ ∀ j, j < i → 18 ≤ ageAt ns j → keyAt ns j ≠ keyAt ns i) →
          i ∈ st.survivors)) ∧
    clean_patient_data [[("name", PValue.str "al ice"), ("age", PValue.str "18")]]
      = Except.ok [[("name", PValue.str "Al Ice"), ("age", PValue.int 18)]] ∧
    clean_patient_data [[("name", PValue.str "al ice"), ("age", PValue.str "17")]]
      = Except.ok [] := by
  refine ⟨?_, rfl, rfl⟩
  intro ps ns st hn hc i hi
  obtain ⟨hmut, hsurv⟩ := run_state hn hc
  have hlen := normAll_length hn
  have hrec := normAll_getD hn i hi
  obtain ⟨s, hname, hp', hage⟩ := normalizeRecord_spec hrec
  refine ⟨hage, ?_, ?_⟩
  · intro hmem
    rw [hsurv, selectIdx_mem_iff] at hmem
    obtain ⟨j, hij, hj, ha, _, _⟩ := hmem
    have hji : j = i := by omega
    subst hji
    exact ha
  · rintro ⟨ha, hfirst⟩
    rw [hsurv, selectIdx_mem_iff]
    exact ⟨i, by omega, by omega, ha, by simp, hfirst⟩

theorem cleaner_age_threshold_witness :
    pyInt ((dictGet (([[("name", PValue.str "al ice"),
        ("age", PValue.str "18")]] : List Patient).getD 0 []) "age").getD (.int 0))
      = some 18 :=
  ((cleaner_age_threshold.1
    [[("name", PValue.str "al ice"), ("age", PValue.str "18")]]
    [([("name", PValue.str "Al Ice"), ("age", PValue.int 18)], 18)]
    ⟨[[("name", PValue.str "Al Ice"), ("age", PValue.int 18)]],
      [[("age", PValue.int 18), ("name", PValue.str "Al Ice")]], [0]⟩
    (by rfl) (by rfl) 0 (by decide)).1 : _)

/-- C6: the dedup key `tuple(sorted(patient.items()))` is an
order-independent canonical representation of all fields (equal exactly
when all lookups agree); in a run, any position whose canonical key
already occurred at an earlier age-passing position is dropped; and on a
two-record input with both ages ≥ 18, field-wise identical cleaned
records collapse to the first one, while records differing in at least
one field (e.g. only in `diagnosis`) both survive. -/
theorem cleaner_dedup_canonical :
    (∀ p q : Patient, (p.map Prod.fst).Nodup → (q.map Prod.fst).Nodup →
      (canonKey p = canonKey q ↔ ∀ k, dictGet p k = dictGet q k)) ∧
    (∀ (ps : List Patient) (ns : List (Patient × Int)) (st : CleanState),
      normAll ps = Except.ok ns → cleanAll 0 ps initState = Except.ok st →
      ∀ i j, i < j → 18 ≤ ageAt ns i → keyAt ns i = keyAt ns j →
        j ∉ st.survivors) ∧
    (∀ (p q p' q' : Patient) (np nq : Int),
      normalizeRecord p = Except.ok (p', np) → normalizeRecord q = Except.ok (q', nq) →
      18 ≤ np → 18 ≤ nq →
      (canonKey q' = canonKey p' → clean_patient_data [p, q] = Except.ok [p']) ∧
      (canonKey q' ≠ canonKey p' → clean_patient_data [p, q] = Except.ok [p', q'])) := by
  refine ⟨fun p q hp hq => canonKey_eq_iff hp hq, ?_, ?_⟩
  · intro ps ns st hn hc i j hij ha hkey hmem
    obtain ⟨_, hsurv⟩ := run_state hn hc
    rw [hsurv, selectIdx_mem_iff] at hmem
    obtain ⟨j2, hjj, hj2, ha2, _, hfirst⟩ := hmem
    have hj2j : j2 = j := by omega
    subst hj2j
    exact hfirst i hij ha hkey
  · intro p q p' q' np nq hnp hnq h18p h18q
    have hstep1 : cleanStep 0 (p', np) initState
        = ⟨[p'], [canonKey p'], [0]⟩ := by
      rw [cleanStep_of_pass_new 0 h18p (by simp [initState])]
      simp [initState]
    constructor
    · intro hkey
      unfold clean_patient_data
      simp only [cleanAll, hnp, hnq, hstep1]
      rw [cleanStep_of_pass_seen 1 h18q (by simp [hkey])]
      rfl
    · intro hkey
      unfold clean_patient_data
      simp only [cleanAll, hnp, hnq, hstep1]
      rw [cleanStep_of_pass_new 1 h18q (by simp [hkey])]
      rfl

theorem cleaner_dedup_canonical_witness :
    clean_patient_data
        [[("name", PValue.str "al ice"), ("age", PValue.str "18"),
          ("diagnosis", PValue.str "flu")],
         [("name", PValue.str "al ice"), ("age", PValue.str "18"),
          ("diagnosis", PValue.str "cold")]]
      = Except.ok
        [[("name", PValue.str "Al Ice"), ("age", PValue.int 18),
          ("diagnosis", PValue.str "flu")],
         [("name", PValue.str "Al Ice"), ("age", PValue.int 18),
          ("diagnosis", PValue.str "cold")]] :=
  ((cleaner_dedup_canonical.2.2
    [("name", PValue.str "al ice"), ("age", PValue.str "18"),
      ("diagnosis", PValue.str "flu")]
    [("name", PValue.str "al ice"), ("age", PValue.str "18"),
      ("diagnosis", PValue.str "cold")]
    [("name", PValue.str "Al Ice"), ("age", PValue.int 18),
      ("diagnosis", PValue.str "flu")]
    [("name", PValue.str "Al Ice"), ("age", PValue.int 18),
      ("diagnosis", PValue.str "cold")]
    18 18 (by rfl) (by rfl) (by decide) (by decide)).2 (by decide))

/-- C10: `clean_patient_data` mutates its input records in place: in any
successful run every input record — surviving or not — has its `name`
overwritten with the title-cased original and its `age` with the coerced
integer, all other fields unchanged; and the returned sequence consists
of exactly the mutated input records themselves, referenced by input
position. -/
theorem cleaner_mutates_in_place :
    ∀ (ps : List Patient) (ns : List (Patient × Int)) (st : CleanState),
      normAll ps = Except.ok ns → cleanAll 0 ps initState = Except.ok st →
      st.mutated.length = ps.length ∧
      (∀ i, i < ps.length →
        (∃ s, dictGet (ps.getD i []) "name" = some (.str s) ∧
          dictGet (st.mutated.getD i []) "name" = some (.str (pyTitle s))) ∧
        dictGet (st.mutated.getD i []) "age" = some (.int (ageAt ns i)) ∧
        (∀ k2, k2 ≠ "name" → k2 ≠ "age" →
          dictGet (st.mutated.getD i []) k2 = dictGet (ps.getD i []) k2)) ∧
      (∀ i ∈ st.survivors, i < ps.length) ∧
      clean_patient_data ps
        = Except.ok (st.survivors.map (fun i => st.mutated.getD i [])) := by
  intro ps ns st hn hc
  obtain ⟨hmut, hsurv⟩ := run_state hn hc
  have hlen := normAll_length hn
  refine ⟨by rw [hmut]; simp [hlen], ?_, ?_, ?_⟩
  · intro i hi
    have hrec := normAll_getD hn i hi
    obtain ⟨s, hname, hp', hage⟩ := normalizeRecord_spec hrec
    have hmg : st.mutated.getD i [] = (ns.getD i ([], 0)).1 := by
      rw [hmut]
      exact getD_map_fst (by omega)
    have hp2 : (ns.getD i ([], 0)).1
        = dictSet (dictSet (ps.getD i []) "name" (PValue.str (pyTitle s))) "age"
          (PValue.int (ns.getD i ([], 0)).2) := hp'
    rw [hmg, hp2]
    refine ⟨⟨s, hname, ?_⟩, ?_, ?_⟩
    · rw [dictGet_dictSet_ne _ _ (by decide), dictGet_dictSet_same]
    · rw [dictGet_dictSet_same]
      rfl
    · intro k2 h1 h2
      rw [dictGet_dictSet_ne _ _ h2, dictGet_dictSet_ne _ _ h1]
  · intro i hmem
    rw [hsurv, selectIdx_mem_iff] at hmem
    obtain ⟨j, hij, hj, _⟩ := hmem
    omega
  · unfold clean_patient_data
    rw [hc]
    rfl

theorem cleaner_mutates_in_place_witness :
    clean_patient_data
        [[("name", PValue.str "al ice"), ("age", PValue.str "17"),
          ("diagnosis", PValue.str "flu")]]
      = Except.ok [] :=
  (cleaner_mutates_in_place
    [[("name", PValue.str "al ice"), ("age", PValue.str "17"),
      ("diagnosis", PValue.str "flu")]]
    [([("name", PValue.str "Al Ice"), ("age", PValue.int 17),
      ("diagnosis", PValue.str "flu")], 17)]
    ⟨[[("name", PValue.str "Al Ice"), ("age", PValue.int 17),
        ("diagnosis", PValue.str "flu")]], [], []⟩
    (by rfl) (by rfl)).2.2.2

end Cleaner
